import Mathlib

/-!
Shallow embedding of the market-regime analysis core of `src/main.py`:
the bear-market detector `find_bear_markets` and the bull-market
synthesizer `identify_bull_markets`.  Prices are modelled as exact
rationals (`ℚ`), dates as integer day-stamps (`ℤ`), and the Python
loops as structural recursions; potential non-termination of the outer
`while` loop is made explicit through a fuel parameter, and the Python
runtime errors (reading the unassigned `in_bear_market` after a skipped
loop, subscripting `None`) are modelled as explicit error values.
-/

namespace YFin

/-- A detected bear-market interval: the `(bear_start, bear_min, bear_end,
percent_loss)` tuple appended to `bear_markets` in `find_bear_markets`.
`endIdx = none` models the Python value `bear_end is None`. -/
structure BearInterval where
  startIdx : ℕ
  troughIdx : ℕ
  endIdx : Option ℕ
  percentLoss : ℚ
deriving DecidableEq, Repr

/-- How the inner `for j in range(i+1, len(data))` loop of
`find_bear_markets` finished: a `break` at `j` because `price[j] >
price[start]` (`newHigh`), a `break` at `j` because the recovery
threshold was reached (`recovery`, with `bear_end = j - 1`), or the
range was exhausted with no `break`. -/
inductive InnerExit where
  | newHigh (j : ℕ)
  | recovery (j : ℕ)
  | exhausted
deriving DecidableEq, Repr

/-- The values of the loop-carried Python variables `in_bear_market`,
`bear_min` and `min_value` when the inner loop finished, together with
the way it finished. -/
structure InnerResult where
  inb : Bool
  bmin : ℕ
  minv : ℚ
  exit : InnerExit
deriving DecidableEq, Repr

/-- The inner `for j in ...` loop body of `find_bear_markets`, as a
structural recursion over the list of remaining indices `j`.  `pstart`
is `data[bear_start]` (constant during one outer iteration), and
`inb`, `bmin`, `minv` are `in_bear_market`, `bear_min`, `min_value`. -/
def innerLoop (price : ℕ → ℚ) (rl pstart : ℚ) :
    List ℕ → Bool → ℕ → ℚ → InnerResult
  | [], inb, bmin, minv => ⟨inb, bmin, minv, InnerExit.exhausted⟩
  | j :: rest, inb, bmin, minv =>
    if inb = false ∧ pstart < price j then
      ⟨inb, bmin, minv, InnerExit.newHigh j⟩
    else
      -- `elif price_now <= price_start * (1 - recovery_limit)` enters the
      -- bear market; the `if in_bear_market:` block then runs in the same
      -- iteration on the just-updated state.
      let st := if inb = false ∧ price j ≤ pstart * (1 - rl)
        then (true, j, price j) else (inb, bmin, minv)
      if st.1 then
        if price j < st.2.2 then
          innerLoop price rl pstart rest true j (price j)
        else if st.2.2 * (1 + rl) ≤ price j then
          ⟨true, st.2.1, st.2.2, InnerExit.recovery j⟩
        else
          innerLoop price rl pstart rest st.1 st.2.1 st.2.2
      else
        innerLoop price rl pstart rest st.1 st.2.1 st.2.2

/-- The Python locals of `find_bear_markets` that survive an outer
`while` iteration and are read after the loop: `in_bear_market`,
`bear_start`, `bear_min`, `bear_end` and `min_value`. -/
structure OuterLeak where
  inb : Bool
  bearStart : ℕ
  bearMin : ℕ
  bearEnd : Option ℕ
  minValue : ℚ
deriving DecidableEq, Repr

/-- One iteration of the outer `while i < len(data) - 1` loop of
`find_bear_markets` at anchor `i`: the next value of `i`, the interval
appended to `bear_markets` (if any) and the leaked locals.

The Python quirks are kept: after a new-high `break` (`i = j`) the
`else: i += 1` branch still runs, so the next anchor is `j + 1`; after a
recovery the next anchor is `bear_end if bear_end else j` (truthiness:
`bear_end == 0` falls back to `j`); when the range is exhausted while in
a bear market, `bear_end` is `None` so `i` becomes the leaked `j`, which
equals `len(data) - 1` there. -/
def outerStep (price : ℕ → ℚ) (n : ℕ) (rl : ℚ) (i : ℕ) :
    ℕ × Option BearInterval × OuterLeak :=
  match innerLoop price rl (price i) (List.range' (i + 1) (n - (i + 1))) false i (price i) with
  | ⟨inb, bmin, minv, InnerExit.newHigh j⟩ =>
      (j + 1, none, ⟨inb, i, bmin, none, minv⟩)
  | ⟨inb, bmin, minv, InnerExit.recovery j⟩ =>
      (if j - 1 = 0 then j else j - 1,
        some ⟨i, bmin, some (j - 1), (minv - price i) / price i * 100⟩,
        ⟨inb, i, bmin, some (j - 1), minv⟩)
  | ⟨inb, bmin, minv, InnerExit.exhausted⟩ =>
      if inb then
        (n - 1, some ⟨i, bmin, none, (minv - price i) / price i * 100⟩,
          ⟨inb, i, bmin, none, minv⟩)
      else
        (i + 1, none, ⟨inb, i, bmin, none, minv⟩)

/-- The outer `while` loop of `find_bear_markets`.  The loop variable `i`
does not decrease in the source only under the intended inputs, so the
recursion is driven by an explicit fuel; `none` models divergence
(never reached with fuel `n + 1` on valid inputs, which is proved
below). -/
def outerLoop (price : ℕ → ℚ) (n : ℕ) (rl : ℚ) :
    ℕ → ℕ → List BearInterval → Option OuterLeak →
    Option (List BearInterval × Option OuterLeak)
  | 0, i, acc, leak => if i < n - 1 then none else some (acc, leak)
  | fuel + 1, i, acc, leak =>
    if i < n - 1 then
      outerLoop price n rl fuel (outerStep price n rl i).1
        (acc ++ (outerStep price n rl i).2.1.toList) (some (outerStep price n rl i).2.2)
    else some (acc, leak)

/-- How `find_bear_markets` can fail: `unboundLocal` models the Python
`NameError` raised by `if in_bear_market and bear_end is None:` when the
`while` loop body never ran (series shorter than 2), and `outOfFuel`
models non-termination of the `while` loop. -/
inductive ScanErr where
  | unboundLocal
  | outOfFuel
deriving DecidableEq, Repr

/-- `find_bear_markets(data, recovery_limit)` from `src/main.py`:
the fueled outer loop followed by the post-loop
`if in_bear_market and bear_end is None:` block, which closes a still
open bear market at index `len(data) - 1` and appends it (again). -/
def find_bear_markets (data : List ℚ) (rl : ℚ) : Except ScanErr (List BearInterval) :=
  let n := data.length
  let price := fun k => data.getD k 0
  match outerLoop price n rl (n + 1) 0 [] none with
  | none => Except.error ScanErr.outOfFuel
  | some (_, none) => Except.error ScanErr.unboundLocal
  | some (acc, some lk) =>
    if lk.inb = true ∧ lk.bearEnd = none then
      let ps := price lk.bearStart
      Except.ok (acc ++ [⟨lk.bearStart, lk.bearMin, some (n - 1),
        (lk.minValue - ps) / ps * 100⟩])
    else Except.ok acc

/-- The regime records built by `identify_bull_markets`: the Python dicts
with `"Market Type"` either `"Bear"` or `"Bull"`. -/
inductive MarketType where
  | bear
  | bull
deriving DecidableEq, Repr

/-- One output dict of `identify_bull_markets`.  `percentChange` is the
`"Percent Loss"` field of a Bear dict and the `"Percent Gain"` field of
a Bull dict; `numberOfDays` is the `.days` difference of the two
day-stamps. -/
structure Regime where
  marketType : MarketType
  troughDate : ℤ
  peakDate : ℤ
  troughPrice : ℚ
  peakPrice : ℚ
  percentChange : ℚ
  numberOfDays : ℤ
deriving DecidableEq, Repr

/-- `data.loc[d]`: the price stored at day-stamp `d` of the index.  All
uses in the source look up a date taken from the index itself. -/
def locPrice (dates : List ℤ) (prices : List ℚ) (d : ℤ) : ℚ :=
  prices.getD (dates.indexOf d) 0

/-- The `bear` dict built for one `(start, minimum, end, percent_loss)`
tuple.  `"Number Of Days"` keeps the source's truthiness test `if end`:
both `end == None` and `end == 0` use the last date of the index. -/
def synthBear (dates : List ℤ) (b : BearInterval) (prices : List ℚ) : Regime :=
  ⟨MarketType.bear,
    dates.getD b.troughIdx 0,
    dates.getD b.startIdx 0,
    prices.getD b.troughIdx 0,
    prices.getD b.startIdx 0,
    b.percentLoss,
    match b.endIdx with
    | some e =>
        if e = 0 then dates.getD (dates.length - 1) 0 - dates.getD b.startIdx 0
        else dates.getD e 0 - dates.getD b.startIdx 0
    | none => dates.getD (dates.length - 1) 0 - dates.getD b.startIdx 0⟩

/-- The `for start, minimum, end, percent_loss in bear_markets:` loop of
`identify_bull_markets`, threading `final_periods`, `last_bear_end` and
`last_bear`. -/
def synthLoop (dates : List ℤ) (prices : List ℚ) :
    List BearInterval → List Regime → ℤ → Option Regime →
    List Regime × ℤ × Option Regime
  | [], acc, lastBearEnd, lastBear => (acc, lastBearEnd, lastBear)
  | b :: rest, acc, lastBearEnd, lastBear =>
    let bear := synthBear dates b prices
    let startValue := match lastBear with
      | none => locPrice dates prices lastBearEnd
      | some lb => lb.troughPrice
    let startDate := match lastBear with
      | none => lastBearEnd
      | some lb => lb.troughDate
    let endValue := locPrice dates prices bear.peakDate
    let endDate := bear.peakDate
    let acc1 := if lastBearEnd < bear.peakDate then
        acc ++ [⟨MarketType.bull, startDate, endDate, startValue, endValue,
          (endValue - startValue) / startValue * 100, endDate - startDate⟩]
      else acc
    synthLoop dates prices rest (acc1 ++ [bear]) bear.troughDate (some bear)

/-- How `identify_bull_markets` can fail: `noneSubscript` models the
Python `TypeError` raised by `last_bear["Trough Price"]` in the trailing
bull-market block when `last_bear` is still `None` (empty bear list). -/
inductive SynthErr where
  | noneSubscript
deriving DecidableEq, Repr

/-- `identify_bull_markets(data, bear_markets)` from `src/main.py`.  The
dated series is split into its index (`dates`, strictly increasing
day-stamps) and values (`prices`). -/
def identify_bull_markets (dates : List ℤ) (prices : List ℚ)
    (bears : List BearInterval) : Except SynthErr (List Regime) :=
  let lastDate := dates.getD (dates.length - 1) 0
  match synthLoop dates prices bears [] (dates.getD 0 0) none with
  | (acc, lastBearEnd, lastBear) =>
    if lastBearEnd < lastDate then
      match lastBear with
      | none => Except.error SynthErr.noneSubscript
      | some lb =>
          Except.ok (acc ++ [⟨MarketType.bull, lastBearEnd, lastDate,
            lb.troughPrice, prices.getD (prices.length - 1) 0,
            (prices.getD (prices.length - 1) 0 - lb.troughPrice) /
              lb.troughPrice * 100,
            lastDate - lastBearEnd⟩])
    else Except.ok acc

/-- The per-interval facts proved about every tuple the detector emits:
the start strictly precedes the trough, the percent loss is nonpositive,
and the trough price is minimal over the whole interval (over
`[startIdx, endIdx]` when the end is present, over `[startIdx, n)` for a
still-open interval). -/
def GoodItv (price : ℕ → ℚ) (n : ℕ) (itv : BearInterval) : Prop :=
  itv.startIdx < itv.troughIdx ∧ itv.percentLoss ≤ 0 ∧ itv.troughIdx < n ∧
  (∀ e, itv.endIdx = some e → itv.troughIdx ≤ e ∧ e < n ∧
    ∀ k, itv.startIdx ≤ k → k ≤ e → price itv.troughIdx ≤ price k) ∧
  (itv.endIdx = none →
    ∀ k, itv.startIdx ≤ k → k < n → price itv.troughIdx ≤ price k)

/-- The facts about the leaked locals that the post-loop block relies
on, needed only when it fires (`in_bear_market` true, `bear_end`
`None`). -/
def GoodLeak (price : ℕ → ℚ) (n : ℕ) (lk : OuterLeak) : Prop :=
  lk.inb = true → lk.bearEnd = none →
    lk.bearStart < lk.bearMin ∧ lk.bearMin < n ∧
    lk.minValue = price lk.bearMin ∧
    (lk.minValue - price lk.bearStart) / price lk.bearStart * 100 ≤ 0 ∧
    ∀ k, lk.bearStart ≤ k → k < n → lk.minValue ≤ price k

/-- Separation of adjacent detector outputs: when the earlier interval
is closed, the later one starts strictly after its end. -/
def SepItv (a b : BearInterval) : Prop := ∀ e, a.endIdx = some e → e < b.startIdx

/-- The invariant carried through the outer loop: every emitted interval
is good, adjacent intervals are separated, the last emitted closed end
lies strictly before the current anchor (or exactly at it with a strict
rise just after, which then prevents an emission at that anchor), and
the leaked locals are consistent with the emitted list. -/
structure OuterInv (price : ℕ → ℚ) (n i : ℕ)
    (acc : List BearInterval) (leak : Option OuterLeak) : Prop where
  good : ∀ a ∈ acc, GoodItv price n a
  chain : List.Chain' SepItv acc
  frontier : ∀ a, acc.getLast? = some a → ∀ e, a.endIdx = some e →
    e < i ∨ (e = i ∧ price i < price (i + 1))
  leakOk : ∀ lk, leak = some lk → GoodLeak price n lk ∧
    (lk.inb = true → lk.bearEnd = none →
      ∃ a, acc.getLast? = some a ∧ a.endIdx = none)

/-! ### Inner-loop invariants -/

/-- Unfolding of one inner iteration while `in_bear_market` holds. -/
theorem innerLoop_cons_inb (price : ℕ → ℚ) (rl pstart : ℚ) (j : ℕ) (rest : List ℕ)
    (bmin : ℕ) (minv : ℚ) :
    innerLoop price rl pstart (j :: rest) true bmin minv =
      if price j < minv then innerLoop price rl pstart rest true j (price j)
      else if minv * (1 + rl) ≤ price j then ⟨true, bmin, minv, InnerExit.recovery j⟩
      else innerLoop price rl pstart rest true bmin minv := by
  simp [innerLoop]

/-- Unfolding of one inner iteration while not yet in a bear market:
either a new high, or entry into the bear state (whose own `if` block
runs in the same iteration), or a plain continue. -/
theorem innerLoop_cons_scan (price : ℕ → ℚ) (rl pstart : ℚ) (j : ℕ) (rest : List ℕ)
    (bmin : ℕ) (minv : ℚ) :
    innerLoop price rl pstart (j :: rest) false bmin minv =
      if pstart < price j then ⟨false, bmin, minv, InnerExit.newHigh j⟩
      else if price j ≤ pstart * (1 - rl) then
        (if price j * (1 + rl) ≤ price j then ⟨true, j, price j, InnerExit.recovery j⟩
         else innerLoop price rl pstart rest true j (price j))
      else innerLoop price rl pstart rest false bmin minv := by
  simp only [innerLoop]
  split_ifs <;> simp_all

/-- Invariant of the inner loop from an in-bear state: the running
minimum is an attained price strictly after the anchor, stays at or
below the entry threshold, bounds every price strictly between the
anchor and the scan position, and every such price stays at or below
the anchor price; on a recovery exit at `jr` the minimum additionally
bounds everything before `jr`, the price at `jr - 1` is below the
recovery threshold and the price at `jr` is at or above it. -/
theorem innerLoop_inb_spec (price : ℕ → ℚ) (rl : ℚ) (n i : ℕ)
    (hpos : ∀ k, k < n → 0 < price k) (hrl0 : 0 < rl) (hrl1 : rl < 1) (hi : i < n) :
    ∀ m j bmin minv, j + m = n → i < bmin → bmin < j →
      minv = price bmin → minv ≤ price i * (1 - rl) →
      (∀ k, i < k → k < j → minv ≤ price k) →
      (∀ k, i < k → k < j → price k ≤ price i) →
      price (j - 1) < minv * (1 + rl) →
      ∀ inb' bmin' minv' ex,
        innerLoop price rl (price i) (List.range' j m) true bmin minv =
          ⟨inb', bmin', minv', ex⟩ →
        inb' = true ∧ minv' = price bmin' ∧ i < bmin' ∧
        minv' ≤ price i * (1 - rl) ∧
        (∀ jr, ex = InnerExit.newHigh jr → False) ∧
        (∀ jr, ex = InnerExit.recovery jr → jr < n ∧ bmin' < jr ∧
          (∀ k, i < k → k < jr → minv' ≤ price k) ∧
          (∀ k, i < k → k < jr → price k ≤ price i) ∧
          price (jr - 1) < minv' * (1 + rl) ∧ minv' * (1 + rl) ≤ price jr) ∧
        (ex = InnerExit.exhausted → bmin' < n ∧
          (∀ k, i < k → k < n → minv' ≤ price k) ∧
          (∀ k, i < k → k < n → price k ≤ price i)) := by
  have hpirl : 0 < price i * rl := mul_pos (hpos i hi) hrl0
  intro m
  induction m with
  | zero =>
    intro j bmin minv hjm hib hbj hmv hms hmin hub _ inb' bmin' minv' ex heq
    rw [show List.range' j 0 = [] from rfl] at heq
    injection heq with h1 h2 h3 h4
    subst h1; subst h2; subst h3; subst h4
    refine ⟨rfl, hmv, hib, hms, ?_, ?_, ?_⟩
    · exact fun jr h => InnerExit.noConfusion h
    · exact fun jr h => InnerExit.noConfusion h
    · exact fun _ => ⟨by omega, fun k hk1 hk2 => hmin k hk1 (by omega),
        fun k hk1 hk2 => hub k hk1 (by omega)⟩
  | succ m ih =>
    intro j bmin minv hjm hib hbj hmv hms hmin hub hprev inb' bmin' minv' ex heq
    rw [List.range'_succ, innerLoop_cons_inb] at heq
    have hjn : j < n := by omega
    by_cases hlt : price j < minv
    · rw [if_pos hlt] at heq
      have hpj : 0 < price j := hpos j hjn
      refine ih (j + 1) j (price j) (by omega) (by omega) (by omega) rfl
        (le_trans hlt.le hms) ?_ ?_ ?_ inb' bmin' minv' ex heq
      · intro k hk1 hk2
        by_cases hkj : k = j
        · subst hkj; exact le_refl _
        · exact le_trans hlt.le (hmin k hk1 (by omega))
      · intro k hk1 hk2
        by_cases hkj : k = j
        · subst hkj; linarith [hms]
        · exact hub k hk1 (by omega)
      · have hj1 : (j + 1) - 1 = j := by omega
        rw [hj1]
        nlinarith [mul_pos hpj hrl0]
    · rw [if_neg hlt] at heq
      by_cases hrec : minv * (1 + rl) ≤ price j
      · rw [if_pos hrec] at heq
        injection heq with h1 h2 h3 h4
        subst h1; subst h2; subst h3; subst h4
        refine ⟨rfl, hmv, hib, hms, ?_, ?_, ?_⟩
        · exact fun jr h => InnerExit.noConfusion h
        · intro jr h
          injection h with hjj
          subst hjj
          exact ⟨hjn, hbj, fun k hk1 hk2 => hmin k hk1 hk2,
            fun k hk1 hk2 => hub k hk1 hk2, hprev, hrec⟩
        · exact fun h => InnerExit.noConfusion h
      · rw [if_neg hrec] at heq
        push_neg at hlt hrec
        refine ih (j + 1) bmin minv (by omega) hib (by omega) hmv hms ?_ ?_ ?_
          inb' bmin' minv' ex heq
        · intro k hk1 hk2
          by_cases hkj : k = j
          · subst hkj; exact hlt
          · exact hmin k hk1 (by omega)
        · intro k hk1 hk2
          by_cases hkj : k = j
          · subst hkj
            have h2 : minv * (1 + rl) ≤ price i * (1 - rl) * (1 + rl) :=
              mul_le_mul_of_nonneg_right hms (by linarith)
            nlinarith [hpos i hi, mul_pos hrl0 hrl0]
          · exact hub k hk1 (by omega)
        · have hj1 : (j + 1) - 1 = j := by omega
          rw [hj1]
          exact hrec

/-- Invariant of the inner loop from the initial not-in-bear state at
the anchor `i`: a `newHigh` exit reports a price strictly above the
anchor; a `recovery` exit, and an exhausted scan that is still in a
bear market, deliver the bear-market facts of `innerLoop_inb_spec`,
with the trough strictly after the anchor and, in particular, the
price right after the anchor at or below the anchor price. -/
theorem innerLoop_scan_spec (price : ℕ → ℚ) (rl : ℚ) (n i : ℕ)
    (hpos : ∀ k, k < n → 0 < price k) (hrl0 : 0 < rl) (hrl1 : rl < 1) (hi : i < n) :
    ∀ m j, j + m = n → i < j →
      (∀ k, i < k → k < j → price i * (1 - rl) < price k ∧ price k ≤ price i) →
      ∀ inb' bmin' minv' ex,
        innerLoop price rl (price i) (List.range' j m) false i (price i) =
          ⟨inb', bmin', minv', ex⟩ →
        (∀ jr, ex = InnerExit.newHigh jr → inb' = false ∧ i < jr ∧ jr < n ∧
          price i < price jr) ∧
        (∀ jr, ex = InnerExit.recovery jr → inb' = true ∧ minv' = price bmin' ∧
          i < bmin' ∧ bmin' < jr ∧ minv' ≤ price i * (1 - rl) ∧
          jr < n ∧
          (∀ k, i < k → k < jr → minv' ≤ price k) ∧
          (∀ k, i < k → k < jr → price k ≤ price i) ∧
          price (jr - 1) < minv' * (1 + rl) ∧ minv' * (1 + rl) ≤ price jr) ∧
        (ex = InnerExit.exhausted → inb' = true → minv' = price bmin' ∧
          i < bmin' ∧ bmin' < n ∧ minv' ≤ price i * (1 - rl) ∧
          (∀ k, i < k → k < n → minv' ≤ price k) ∧
          (∀ k, i < k → k < n → price k ≤ price i)) := by
  have hpi : 0 < price i := hpos i hi
  have hpirl : 0 < price i * rl := mul_pos hpi hrl0
  intro m
  induction m with
  | zero =>
    intro j hjm hij hpre inb' bmin' minv' ex heq
    rw [show List.range' j 0 = [] from rfl] at heq
    injection heq with h1 h2 h3 h4
    subst h1; subst h2; subst h3; subst h4
    refine ⟨?_, ?_, ?_⟩
    · exact fun jr h => InnerExit.noConfusion h
    · exact fun jr h => InnerExit.noConfusion h
    · exact fun _ h => Bool.noConfusion h
  | succ m ih =>
    intro j hjm hij hpre inb' bmin' minv' ex heq
    rw [List.range'_succ, innerLoop_cons_scan] at heq
    have hjn : j < n := by omega
    have hpj : 0 < price j := hpos j hjn
    by_cases hhigh : price i < price j
    · rw [if_pos hhigh] at heq
      injection heq with h1 h2 h3 h4
      subst h1; subst h2; subst h3; subst h4
      refine ⟨?_, ?_, ?_⟩
      · intro jr h
        injection h with hjj
        subst hjj
        exact ⟨rfl, hij, hjn, hhigh⟩
      · exact fun jr h => InnerExit.noConfusion h
      · exact fun h => InnerExit.noConfusion h
    · rw [if_neg hhigh] at heq
      by_cases henter : price j ≤ price i * (1 - rl)
      · rw [if_pos henter] at heq
        have hnorec : ¬ price j * (1 + rl) ≤ price j := by nlinarith [mul_pos hpj hrl0]
        rw [if_neg hnorec] at heq
        have hspec := innerLoop_inb_spec price rl n i hpos hrl0 hrl1 hi m (j + 1) j
          (price j) (by omega) hij (by omega) rfl henter ?_ ?_ ?_ inb' bmin' minv' ex heq
        · obtain ⟨hinb, hmv, hib, hms, hnh, hrec, hex⟩ := hspec
          refine ⟨fun jr h => (hnh jr h).elim, fun jr h => ?_,
            fun h _ => ?_⟩
          · obtain ⟨hjrn, hbj, hminset, hubset, hp1, hp2⟩ := hrec jr h
            exact ⟨hinb, hmv, hib, hbj, hms, hjrn, hminset, hubset, hp1, hp2⟩
          · obtain ⟨hbn, hminset, hubset⟩ := hex h
            exact ⟨hmv, hib, hbn, hms, hminset, hubset⟩
        · intro k hk1 hk2
          by_cases hkj : k = j
          · subst hkj; exact le_refl _
          · exact le_trans henter (le_of_lt (hpre k hk1 (by omega)).1)
        · intro k hk1 hk2
          by_cases hkj : k = j
          · subst hkj; linarith
          · exact (hpre k hk1 (by omega)).2
        · have hj1 : (j + 1) - 1 = j := by omega
          rw [hj1]
          nlinarith [mul_pos hpj hrl0]
      · rw [if_neg henter] at heq
        push_neg at hhigh henter
        refine ih (j + 1) (by omega) (by omega) ?_ inb' bmin' minv' ex heq
        intro k hk1 hk2
        by_cases hkj : k = j
        · subst hkj; exact ⟨henter, hhigh⟩
        · exact hpre k hk1 (by omega)

/-! ### Outer-loop invariants -/

/-- Case analysis of one outer iteration on a valid series: the anchor
strictly advances, and the iteration either emits nothing and leaves
`in_bear_market` false, or emits a closed interval ending exactly at the
new anchor with a strict rise right after it, or emits the final open
interval.  In both emitting cases the interval starts at `i`, its trough
realizes the minimum of the whole interval, its loss is nonpositive, and
the price right after the anchor did not exceed the anchor price. -/
theorem outerStep_cases (price : ℕ → ℚ) (n : ℕ) (rl : ℚ)
    (hpos : ∀ k, k < n → 0 < price k) (hrl0 : 0 < rl) (hrl1 : rl < 1)
    (i : ℕ) (hi1 : i < n - 1) :
    i < (outerStep price n rl i).1 ∧
    (((outerStep price n rl i).2.1 = none ∧ (outerStep price n rl i).2.2.inb = false) ∨
     (∃ e bmin minv,
        outerStep price n rl i =
          (e, some ⟨i, bmin, some e, (minv - price i) / price i * 100⟩,
            ⟨true, i, bmin, some e, minv⟩) ∧
        i < bmin ∧ bmin ≤ e ∧ e < n ∧ minv = price bmin ∧
        (minv - price i) / price i * 100 ≤ 0 ∧
        (∀ k, i ≤ k → k ≤ e → minv ≤ price k) ∧
        price e < price (e + 1) ∧ price (i + 1) ≤ price i) ∨
     (∃ bmin minv,
        outerStep price n rl i =
          (n - 1, some ⟨i, bmin, none, (minv - price i) / price i * 100⟩,
            ⟨true, i, bmin, none, minv⟩) ∧
        i < bmin ∧ bmin < n ∧ minv = price bmin ∧
        (minv - price i) / price i * 100 ≤ 0 ∧
        (∀ k, i ≤ k → k < n → minv ≤ price k) ∧
        price (i + 1) ≤ price i)) := by
  have hin : i < n := by omega
  have hpi : 0 < price i := hpos i hin
  have hpirl : 0 < price i * rl := mul_pos hpi hrl0
  rcases hR : innerLoop price rl (price i) (List.range' (i + 1) (n - (i + 1)))
    false i (price i) with ⟨inb', bmin', minv', ex⟩
  have hspec := innerLoop_scan_spec price rl n i hpos hrl0 hrl1 hin
    (n - (i + 1)) (i + 1) (by omega) (by omega)
    (fun k hk1 hk2 => absurd hk2 (by omega)) inb' bmin' minv' ex hR
  obtain ⟨hnh, hrec, hex⟩ := hspec
  have hpl : ∀ minv : ℚ, minv ≤ price i * (1 - rl) →
      (minv - price i) / price i * 100 ≤ 0 := by
    intro minv hm
    have h1 : minv - price i ≤ 0 := by nlinarith
    have h2 : (minv - price i) / price i ≤ 0 :=
      div_nonpos_of_nonpos_of_nonneg h1 hpi.le
    linarith
  cases ex with
  | newHigh jr =>
    obtain ⟨hfb, hij, hjn, hhigh⟩ := hnh jr rfl
    subst hfb
    constructor
    · simp only [outerStep, hR]
      omega
    · left
      simp [outerStep, hR]
  | recovery jr =>
    obtain ⟨htb, hmv, hib, hbj, hms, hjrn, hminset, hubset, hp1, hp2⟩ := hrec jr rfl
    subst htb
    have hjr2 : i + 1 < jr := by omega
    have hbend : ¬ jr - 1 = 0 := by omega
    have hstep : outerStep price n rl i =
        (jr - 1, some ⟨i, bmin', some (jr - 1), (minv' - price i) / price i * 100⟩,
          ⟨true, i, bmin', some (jr - 1), minv'⟩) := by
      simp only [outerStep, hR]
      rw [if_neg hbend]
    constructor
    · rw [hstep]; omega
    · right; left
      refine ⟨jr - 1, bmin', minv', hstep, hib, by omega, by omega, hmv,
        hpl minv' hms, ?_, ?_, ?_⟩
      · intro k hk1 hk2
        rcases Nat.eq_or_lt_of_le hk1 with hk | hk
        · rw [← hk]; linarith
        · exact hminset k hk (by omega)
      · have hje : jr - 1 + 1 = jr := by omega
        rw [hje]
        linarith
      · exact hubset (i + 1) (by omega) hjr2
  | exhausted =>
    cases hb : inb' with
    | false =>
      subst hb
      constructor
      · simp only [outerStep, hR]
        norm_num
      · left
        simp [outerStep, hR]
    | true =>
      subst hb
      obtain ⟨hmv, hib, hbn, hms, hminset, hubset⟩ := hex rfl rfl
      have hstep : outerStep price n rl i =
          (n - 1, some ⟨i, bmin', none, (minv' - price i) / price i * 100⟩,
            ⟨true, i, bmin', none, minv'⟩) := by
        simp only [outerStep, hR]
        norm_num
      constructor
      · rw [hstep]; omega
      · right; right
        refine ⟨bmin', minv', hstep, hib, hbn, hmv, hpl minv' hms, ?_, ?_⟩
        · intro k hk1 hk2
          rcases Nat.eq_or_lt_of_le hk1 with hk | hk
          · rw [← hk]; linarith
          · exact hminset k hk hk2
        · exact hubset (i + 1) (by omega) (by omega)

/-- The outer loop preserves `OuterInv` and hands its consequences to
whatever state it stops in. -/
theorem outerLoop_inv (price : ℕ → ℚ) (n : ℕ) (rl : ℚ)
    (hpos : ∀ k, k < n → 0 < price k) (hrl0 : 0 < rl) (hrl1 : rl < 1) :
    ∀ fuel i acc leak, OuterInv price n i acc leak →
      ∀ acc' leak', outerLoop price n rl fuel i acc leak = some (acc', leak') →
      (∀ a ∈ acc', GoodItv price n a) ∧ List.Chain' SepItv acc' ∧
      ∀ lk, leak' = some lk → GoodLeak price n lk ∧
        (lk.inb = true → lk.bearEnd = none →
          ∃ a, acc'.getLast? = some a ∧ a.endIdx = none) := by
  intro fuel
  induction fuel with
  | zero =>
    intro i acc leak hinv acc' leak' heq
    simp only [outerLoop] at heq
    by_cases hin : i < n - 1
    · rw [if_pos hin] at heq
      exact Option.noConfusion heq
    · rw [if_neg hin] at heq
      injection heq with h
      injection h with h1 h2
      subst h1; subst h2
      exact ⟨hinv.good, hinv.chain, hinv.leakOk⟩
  | succ fuel ih =>
    intro i acc leak hinv acc' leak' heq
    simp only [outerLoop] at heq
    by_cases hin : i < n - 1
    · rw [if_pos hin] at heq
      obtain ⟨hprog, hcases⟩ := outerStep_cases price n rl hpos hrl0 hrl1 i hin
      rcases hcases with ⟨hnone, hfb⟩ |
        ⟨e, bmin, minv, hstep, hib, hbe, hen, hmv, hpl, hminset, hrise, hdrop⟩ |
        ⟨bmin, minv, hstep, hib, hbn, hmv, hpl, hminset, hdrop⟩
      · rw [hnone] at heq
        simp only [Option.toList_none, List.append_nil] at heq
        refine ih (outerStep price n rl i).1 acc (some (outerStep price n rl i).2.2)
          ⟨hinv.good, hinv.chain, ?_, ?_⟩ acc' leak' heq
        · intro a ha e he
          rcases hinv.frontier a ha e he with h | ⟨h, _⟩
          · exact Or.inl (by omega)
          · exact Or.inl (by omega)
        · intro lk hlk
          injection hlk with hlk
          subst hlk
          constructor
          · intro htrue
            rw [hfb] at htrue
            exact Bool.noConfusion htrue
          · intro htrue
            rw [hfb] at htrue
            exact Bool.noConfusion htrue
      · rw [hstep] at heq
        simp only [Option.toList_some] at heq
        have hgooditv : GoodItv price n ⟨i, bmin, some e, (minv - price i) / price i * 100⟩ := by
          refine ⟨hib, hpl, ?_, ?_, ?_⟩
          case refine_1 => show bmin < n; omega
          · intro e' he'
            injection he' with he'
            subst he'
            refine ⟨hbe, hen, ?_⟩
            intro k hk1 hk2
            rw [← hmv]
            exact hminset k hk1 hk2
          · intro hno
            exact Option.noConfusion hno
        refine ih e (acc ++ [⟨i, bmin, some e, (minv - price i) / price i * 100⟩])
          (some ⟨true, i, bmin, some e, minv⟩) ⟨?_, ?_, ?_, ?_⟩ acc' leak' heq
        · intro a ha
          rcases List.mem_append.mp ha with h | h
          · exact hinv.good a h
          · rw [List.mem_singleton.mp h]
            exact hgooditv
        · rw [List.chain'_append]
          refine ⟨hinv.chain, List.chain'_singleton _, ?_⟩
          intro x hx y hy
          simp only [List.head?_cons, Option.mem_def] at hy
          injection hy with hy
          subst hy
          intro e0 he0
          rcases hinv.frontier x (Option.mem_def.mp hx) e0 he0 with h | ⟨h, hr⟩
          · exact h
          · exact absurd hr (not_lt.mpr hdrop)
        · intro a ha e0 he0
          rw [List.getLast?_concat] at ha
          injection ha with ha
          subst ha
          simp only at he0
          injection he0 with he0
          subst he0
          exact Or.inr ⟨rfl, hrise⟩
        · intro lk hlk
          injection hlk with hlk
          subst hlk
          constructor
          · intro _ hno
            exact Option.noConfusion hno
          · intro _ hno
            exact Option.noConfusion hno
      · rw [hstep] at heq
        simp only [Option.toList_some] at heq
        have hgooditv : GoodItv price n ⟨i, bmin, none, (minv - price i) / price i * 100⟩ := by
          refine ⟨hib, hpl, hbn, ?_, ?_⟩
          · intro e' he'
            exact Option.noConfusion he'
          · intro _ k hk1 hk2
            rw [← hmv]
            exact hminset k hk1 hk2
        refine ih (n - 1) (acc ++ [⟨i, bmin, none, (minv - price i) / price i * 100⟩])
          (some ⟨true, i, bmin, none, minv⟩) ⟨?_, ?_, ?_, ?_⟩ acc' leak' heq
        · intro a ha
          rcases List.mem_append.mp ha with h | h
          · exact hinv.good a h
          · rw [List.mem_singleton.mp h]
            exact hgooditv
        · rw [List.chain'_append]
          refine ⟨hinv.chain, List.chain'_singleton _, ?_⟩
          intro x hx y hy
          simp only [List.head?_cons, Option.mem_def] at hy
          injection hy with hy
          subst hy
          intro e0 he0
          rcases hinv.frontier x (Option.mem_def.mp hx) e0 he0 with h | ⟨h, hr⟩
          · exact h
          · exact absurd hr (not_lt.mpr hdrop)
        · intro a ha e0 he0
          rw [List.getLast?_concat] at ha
          injection ha with ha
          subst ha
          exact Option.noConfusion he0
        · intro lk hlk
          injection hlk with hlk
          subst hlk
          refine ⟨?_, ?_⟩
          · intro _ _
            refine ⟨hib, hbn, hmv, hpl, ?_⟩
            intro k hk1 hk2
            exact hminset k hk1 hk2
          · intro _ _
            exact ⟨_, List.getLast?_concat acc, rfl⟩
    · rw [if_neg hin] at heq
      injection heq with h
      injection h with h1 h2
      subst h1; subst h2
      exact ⟨hinv.good, hinv.chain, hinv.leakOk⟩

/-- With positive prices and a recovery limit in `(0,1)` the outer loop
terminates within `n` iterations: the fueled loop with enough fuel never
runs out, and once it iterates at least once the leaked locals are
assigned. -/
theorem outerLoop_total (price : ℕ → ℚ) (n : ℕ) (rl : ℚ)
    (hpos : ∀ k, k < n → 0 < price k) (hrl0 : 0 < rl) (hrl1 : rl < 1) :
    ∀ fuel i acc leak, (n - 1) - i ≤ fuel →
      (i < n - 1 → ∃ acc' lk',
        outerLoop price n rl fuel i acc leak = some (acc', some lk')) ∧
      (¬ i < n - 1 → outerLoop price n rl fuel i acc leak = some (acc, leak)) := by
  intro fuel
  induction fuel with
  | zero =>
    intro i acc leak hf
    constructor
    · intro h
      exact absurd h (by omega)
    · intro h
      simp only [outerLoop]
      rw [if_neg h]
  | succ fuel ih =>
    intro i acc leak hf
    constructor
    · intro hin
      simp only [outerLoop]
      rw [if_pos hin]
      have hprog := (outerStep_cases price n rl hpos hrl0 hrl1 i hin).1
      have H := ih (outerStep price n rl i).1
        (acc ++ (outerStep price n rl i).2.1.toList)
        (some (outerStep price n rl i).2.2) (by omega)
      by_cases h2 : (outerStep price n rl i).1 < n - 1
      · exact H.1 h2
      · exact ⟨_, _, H.2 h2⟩
    · intro h
      simp only [outerLoop]
      rw [if_neg h]

/-! ### The detector at the level of `find_bear_markets` -/

/-- Positivity transfers from list membership to `getD` lookups. -/
theorem getD_pos {data : List ℚ} (hpos : ∀ x ∈ data, 0 < x) :
    ∀ k, k < data.length → 0 < data.getD k 0 := by
  intro k hk
  rw [List.getD_eq_getElem?_getD, List.getElem?_eq_getElem hk]
  exact hpos _ (List.getElem_mem hk)

/-- On a valid series every interval in an `ok` result of
`find_bear_markets` is good and adjacent intervals are separated. -/
theorem find_bear_markets_ok_spec (data : List ℚ) (rl : ℚ)
    (hpos : ∀ x ∈ data, 0 < x) (hrl0 : 0 < rl) (hrl1 : rl < 1)
    (L : List BearInterval) (hok : find_bear_markets data rl = Except.ok L) :
    (∀ a ∈ L, GoodItv (fun k => data.getD k 0) data.length a) ∧
    List.Chain' SepItv L := by
  have hposk : ∀ k, k < data.length → 0 < (fun k => data.getD k 0) k := getD_pos hpos
  simp only [find_bear_markets] at hok
  rcases hE : outerLoop (fun k => data.getD k 0) data.length rl (data.length + 1) 0 [] none
    with _ | ⟨acc, lk⟩
  · rw [hE] at hok
    exact Except.noConfusion hok
  · rw [hE] at hok
    rcases lk with _ | lk
    · exact Except.noConfusion hok
    · have hinv0 : OuterInv (fun k => data.getD k 0) data.length 0 [] none := by
        refine ⟨?_, List.chain'_nil, ?_, ?_⟩
        · intro a ha
          exact absurd ha (List.not_mem_nil a)
        · intro a ha
          exact Option.noConfusion ha
        · intro lk0 h
          exact Option.noConfusion h
      obtain ⟨hgood, hchain, hleak⟩ := outerLoop_inv (fun k => data.getD k 0)
        data.length rl hposk hrl0 hrl1 (data.length + 1) 0 [] none hinv0 acc (some lk) hE
      obtain ⟨hGL, hlast⟩ := hleak lk rfl
      have hok2 : (if lk.inb = true ∧ lk.bearEnd = none then
          Except.ok (acc ++ [⟨lk.bearStart, lk.bearMin, some (data.length - 1),
            (lk.minValue - data.getD lk.bearStart 0) / data.getD lk.bearStart 0 * 100⟩])
          else Except.ok acc) = Except.ok L := hok
      clear hok
      by_cases hcond : lk.inb = true ∧ lk.bearEnd = none
      · rw [if_pos hcond] at hok2
        injection hok2 with hok2
        subst hok2
        obtain ⟨hsm, hmn, hmv, hpl, hset⟩ := hGL hcond.1 hcond.2
        constructor
        · intro a ha
          rcases List.mem_append.mp ha with h | h
          · exact hgood a h
          · rw [List.mem_singleton.mp h]
            refine ⟨hsm, hpl, hmn, ?_, ?_⟩
            · intro e' he'
              injection he' with he'
              refine ⟨?_, by omega, ?_⟩
              · show lk.bearMin ≤ e'
                omega
              intro k hk1 hk2
              have hkset := hset k hk1 (by omega)
              rw [hmv] at hkset
              exact hkset
            · intro hno
              exact Option.noConfusion hno
        · rw [List.chain'_append]
          refine ⟨hchain, List.chain'_singleton _, ?_⟩
          intro x hx y hy
          obtain ⟨a, hlasta, hae⟩ := hlast hcond.1 hcond.2
          have hxa : x = a := by
            rw [hlasta] at hx
            exact (Option.some_inj.mp (Option.mem_def.mp hx)).symm
          intro e0 he0
          rw [hxa, hae] at he0
          exact Option.noConfusion he0
      · rw [if_neg hcond] at hok2
        injection hok2 with hok2
        subst hok2
        exact ⟨hgood, hchain⟩

/-! ### Claim theorems -/

/-- C9 (corrected): `find_bear_markets` performs no input validation at
all.  On a series of length at least 2 with positive prices and a
recovery limit in `(0,1)` it never errors; on a series shorter than 2
it fails, but with the uninitialized-variable error of the post-loop
`if in_bear_market ...:` test, not a validation error.  An out-of-range
recovery limit is never rejected (see the counterexample). -/
theorem find_bear_markets_error_iff_short (data : List ℚ) (rl : ℚ)
    (hpos : ∀ x ∈ data, 0 < x) (hrl0 : 0 < rl) (hrl1 : rl < 1) :
    (2 ≤ data.length → ∃ L, find_bear_markets data rl = Except.ok L) ∧
    (data.length < 2 → find_bear_markets data rl = Except.error ScanErr.unboundLocal) := by
  constructor
  · intro hlen
    have hposk : ∀ k, k < data.length → 0 < (fun k => data.getD k 0) k := getD_pos hpos
    obtain ⟨acc, lk', hE⟩ := (outerLoop_total (fun k => data.getD k 0) data.length rl
      hposk hrl0 hrl1 (data.length + 1) 0 [] none (by omega)).1 (by omega)
    simp only [find_bear_markets]
    rw [hE]
    by_cases hcond : lk'.inb = true ∧ lk'.bearEnd = none
    · exact ⟨_, if_pos hcond⟩
    · exact ⟨_, if_neg hcond⟩
  · intro hlen
    simp only [find_bear_markets]
    have hE : outerLoop (fun k => data.getD k 0) data.length rl (data.length + 1) 0 [] none
        = some ([], none) := by
      simp only [outerLoop]
      rw [if_neg (by omega)]
    rw [hE]

/-- C9 witness: the theorem applied at the two-point series
`[100, 50]` with recovery limit `1/2`. -/
theorem find_bear_markets_error_iff_short_witness :
    (2 ≤ ([100, 50] : List ℚ).length →
      ∃ L, find_bear_markets [100, 50] (1/2) = Except.ok L) ∧
    (([100, 50] : List ℚ).length < 2 →
      find_bear_markets [100, 50] (1/2) = Except.error ScanErr.unboundLocal) :=
  find_bear_markets_error_iff_short [100, 50] (1/2) (by norm_num) (by norm_num) (by norm_num)

/-- C9 counterexample: with recovery limit `2`, which is not in `(0,1)`,
and the valid two-point series `[100, 50]`, `find_bear_markets` raises
no input-validation error at all: it returns normally, refuting the
claimed equivalence. -/
theorem find_bear_markets_no_validation_cex :
    find_bear_markets [100, 50] 2 = Except.ok [] ∧ ¬ ((2 : ℚ) < 1) := by
  constructor
  · norm_num [find_bear_markets, outerLoop, outerStep, innerLoop, List.range']
  · norm_num

/-- C4 (confirmed): the spec's worked scenario.  On prices
`[100, 90, 79, 85, 95]` with recovery limit `1/5` (that is, `0.20`) the
detector returns exactly one interval `(0, 2, 3, -21.0)`. -/
theorem find_bear_markets_spec_scenario :
    find_bear_markets [100, 90, 79, 85, 95] (1/5) =
      Except.ok [⟨0, 2, some 3, -21⟩] := by
  norm_num [find_bear_markets, outerLoop, outerStep, innerLoop, List.range']

/-- C5 (confirmed): on a valid price series (positive prices) with a
recovery limit in `(0,1)`, every interval returned by
`find_bear_markets` has nonpositive percent loss, and whenever its end
index is present the trough price is a minimum of the prices over the
whole `[startIdx, endIdx]` range. -/
theorem find_bear_markets_trough_is_min (data : List ℚ) (rl : ℚ)
    (hpos : ∀ x ∈ data, 0 < x) (hrl0 : 0 < rl) (hrl1 : rl < 1)
    (L : List BearInterval) (hok : find_bear_markets data rl = Except.ok L) :
    ∀ itv ∈ L, itv.percentLoss ≤ 0 ∧
      ∀ e, itv.endIdx = some e → ∀ j, itv.startIdx ≤ j → j ≤ e →
        data.getD itv.troughIdx 0 ≤ data.getD j 0 := by
  intro itv hitv
  obtain ⟨hgood, _⟩ := find_bear_markets_ok_spec data rl hpos hrl0 hrl1 L hok
  obtain ⟨_, hpl, _, hsome, _⟩ := hgood itv hitv
  exact ⟨hpl, fun e he j hj1 hj2 => (hsome e he).2.2 j hj1 hj2⟩

/-- C5 witness: the theorem applied to the concrete scenario series. -/
theorem find_bear_markets_trough_is_min_witness :
    (∀ x ∈ ([100, 90, 79, 85, 95] : List ℚ), 0 < x) ∧
    (0 < (1 : ℚ)/5) ∧ ((1 : ℚ)/5 < 1) ∧
    ∀ itv ∈ [(⟨0, 2, some 3, -21⟩ : BearInterval)], itv.percentLoss ≤ 0 ∧
      ∀ e, itv.endIdx = some e → ∀ j, itv.startIdx ≤ j → j ≤ e →
        ([100, 90, 79, 85, 95] : List ℚ).getD itv.troughIdx 0 ≤
          ([100, 90, 79, 85, 95] : List ℚ).getD j 0 := by
  have h1 : ∀ x ∈ ([100, 90, 79, 85, 95] : List ℚ), 0 < x := by norm_num
  have h2 : (0 : ℚ) < 1/5 := by norm_num
  have h3 : (1 : ℚ)/5 < 1 := by norm_num
  refine ⟨h1, h2, h3, find_bear_markets_trough_is_min [100, 90, 79, 85, 95] (1/5) h1 h2 h3
    [⟨0, 2, some 3, -21⟩] ?_⟩
  norm_num [find_bear_markets, outerLoop, outerStep, innerLoop, List.range']

/-- C10 (corrected): on a valid series with a recovery limit in `(0,1)`,
for adjacent returned intervals whose earlier end is present the later
interval starts strictly AFTER the earlier end (never exactly on it),
and in every emitted interval the start strictly precedes the trough. -/
theorem find_bear_markets_separated (data : List ℚ) (rl : ℚ)
    (hpos : ∀ x ∈ data, 0 < x) (hrl0 : 0 < rl) (hrl1 : rl < 1)
    (L : List BearInterval) (hok : find_bear_markets data rl = Except.ok L) :
    List.Chain' SepItv L ∧ ∀ itv ∈ L, itv.startIdx < itv.troughIdx := by
  obtain ⟨hgood, hchain⟩ := find_bear_markets_ok_spec data rl hpos hrl0 hrl1 L hok
  exact ⟨hchain, fun itv hitv => (hgood itv hitv).1⟩

/-- C10 witness: the theorem applied to a series with two bear markets. -/
theorem find_bear_markets_separated_witness :
    List.Chain' SepItv [(⟨0, 1, some 1, -20⟩ : BearInterval), ⟨3, 4, some 4, -20⟩] ∧
    ∀ itv ∈ [(⟨0, 1, some 1, -20⟩ : BearInterval), ⟨3, 4, some 4, -20⟩],
      itv.startIdx < itv.troughIdx := by
  have h1 : ∀ x ∈ ([100, 80, 96, 100, 80, 96] : List ℚ), 0 < x := by norm_num
  have h2 : (0 : ℚ) < 1/5 := by norm_num
  have h3 : (1 : ℚ)/5 < 1 := by norm_num
  refine find_bear_markets_separated [100, 80, 96, 100, 80, 96] (1/5) h1 h2 h3
    [⟨0, 1, some 1, -20⟩, ⟨3, 4, some 4, -20⟩] ?_
  norm_num [find_bear_markets, outerLoop, outerStep, innerLoop, List.range']

/-- C10 counterexample: on `[100, 80, 96, 100, 80, 96]` with recovery
limit `1/5` the detector returns two adjacent intervals where the
earlier ends at index 1 but the later starts at index 3, refuting the
claim that the later start equals the earlier end. -/
theorem find_bear_markets_adjacent_gap_cex :
    find_bear_markets [100, 80, 96, 100, 80, 96] (1/5) =
      Except.ok [⟨0, 1, some 1, -20⟩, ⟨3, 4, some 4, -20⟩] ∧
    BearInterval.endIdx ⟨0, 1, some 1, -20⟩ = some 1 ∧
    BearInterval.startIdx ⟨3, 4, some 4, -20⟩ ≠ 1 := by
  refine ⟨?_, rfl, by decide⟩
  norm_num [find_bear_markets, outerLoop, outerStep, innerLoop, List.range']

/-- C3 (corrected): when the inner scan at anchor `i` breaks because of
a new high at `j`, the next anchor is `j + 1`, not `j`: the `i = j` set
inside the loop is followed by the unconditional `else: i += 1`, so the
new-high index itself is always skipped as an anchor. -/
theorem outerStep_new_high_next_anchor (price : ℕ → ℚ) (n : ℕ) (rl : ℚ) (i j : ℕ)
    (inb : Bool) (bmin : ℕ) (minv : ℚ)
    (h : innerLoop price rl (price i) (List.range' (i + 1) (n - (i + 1))) false i (price i)
      = ⟨inb, bmin, minv, InnerExit.newHigh j⟩) :
    (outerStep price n rl i).1 = j + 1 := by
  simp only [outerStep, h]

/-- C3 witness: the theorem applied at anchor 0 of `[100, 200, 150]`,
where the new high fires at index 1 and the next anchor is 2. -/
theorem outerStep_new_high_next_anchor_witness :
    (outerStep (fun k => ([100, 200, 150] : List ℚ).getD k 0) 3 (1/5) 0).1 = 1 + 1 :=
  outerStep_new_high_next_anchor (fun k => ([100, 200, 150] : List ℚ).getD k 0) 3 (1/5) 0 1
    false 0 100 (by norm_num [innerLoop, List.range'])

/-- C3 counterexample: at anchor 0 of `[100, 200, 150]` the scan breaks
with a new high at index 1, yet the next anchor is 2, not 1 — the index
whose price exceeded the anchor is skipped, refuting the claim that it
always becomes the next anchor. -/
theorem outerStep_new_high_skips_peak_cex :
    innerLoop (fun k => ([100, 200, 150] : List ℚ).getD k 0) (1/5) 100
        (List.range' 1 2) false 0 100
      = ⟨false, 0, 100, InnerExit.newHigh 1⟩ ∧
    (outerStep (fun k => ([100, 200, 150] : List ℚ).getD k 0) 3 (1/5) 0).1 = 2 ∧
    (2 : ℕ) ≠ 1 := by
  refine ⟨?_, ?_, by decide⟩
  · norm_num [innerLoop, List.range']
  · norm_num [outerStep, innerLoop, List.range']

/-- C2 (code bug): on `[100, 70]`, a series that ends still in a bear
market, the detector does not emit exactly one open-ended interval: the
unfinished bear market is appended twice, once open-ended inside the
loop and once more closed at the last index by the post-loop block. -/
theorem find_bear_markets_open_end_duplicated :
    find_bear_markets [100, 70] (1/5) =
      Except.ok [⟨0, 1, none, -30⟩, ⟨0, 1, some 1, -30⟩] := by
  norm_num [find_bear_markets, outerLoop, outerStep, innerLoop, List.range']

/-- C6 (code bug): on `[100, 90, 70]` with recovery limit `1/5` the
returned intervals are not pairwise non-overlapping: the duplicated
final bear market yields two intervals with the same start index 0. -/
theorem find_bear_markets_overlapping_intervals :
    find_bear_markets [100, 90, 70] (1/5) =
      Except.ok [⟨0, 2, none, -30⟩, ⟨0, 2, some 2, -30⟩] ∧
    BearInterval.startIdx ⟨0, 2, none, -30⟩ = 0 ∧
    BearInterval.startIdx ⟨0, 2, some 2, -30⟩ = 0 := by
  refine ⟨?_, rfl, rfl⟩
  norm_num [find_bear_markets, outerLoop, outerStep, innerLoop, List.range']

/-- C1 (code bug): on the increasing two-point series the detector
returns the empty interval list, and the synthesizer then fails with
the `None`-subscript error in its trailing bull-market block instead of
returning a single Bull regime spanning the series. -/
theorem identify_bull_markets_empty_bears_crash :
    find_bear_markets [100, 101] (1/5) = Except.ok [] ∧
    identify_bull_markets [0, 7] [100, 101] [] = Except.error SynthErr.noneSubscript := by
  constructor
  · norm_num [find_bear_markets, outerLoop, outerStep, innerLoop, List.range']
  · norm_num [identify_bull_markets, synthLoop, synthBear, locPrice]

/-- C7 (code bug): feeding the detector's output on `[100, 70]` (with
day-stamps 0 and 7) to the synthesizer yields two consecutive Bear
regimes, refuting the alternation claim. -/
theorem identify_bull_markets_consecutive_bears :
    find_bear_markets [100, 70] (1/5) =
      Except.ok [⟨0, 1, none, -30⟩, ⟨0, 1, some 1, -30⟩] ∧
    identify_bull_markets [0, 7] [100, 70] [⟨0, 1, none, -30⟩, ⟨0, 1, some 1, -30⟩] =
      Except.ok [⟨MarketType.bear, 7, 0, 70, 100, -30, 7⟩,
        ⟨MarketType.bear, 7, 0, 70, 100, -30, 7⟩] ∧
    Regime.marketType ⟨MarketType.bear, 7, 0, 70, 100, -30, 7⟩ = MarketType.bear := by
  refine ⟨?_, ?_, rfl⟩
  · norm_num [find_bear_markets, outerLoop, outerStep, innerLoop, List.range']
  · norm_num [identify_bull_markets, synthLoop, synthBear, locPrice]

/-- C8 (code bug): on `[100, 90, 70]` (day-stamps 0, 7, 14) the
pipeline's regimes are two identical Bear regimes both spanning the
dates 0 to 14, so the concatenated spans cover the range twice instead
of partitioning it; moreover on an empty bear list the synthesizer
errors (see the C1 theorem), refuting the coverage claim. -/
theorem identify_bull_markets_duplicate_spans :
    find_bear_markets [100, 90, 70] (1/5) =
      Except.ok [⟨0, 2, none, -30⟩, ⟨0, 2, some 2, -30⟩] ∧
    identify_bull_markets [0, 7, 14] [100, 90, 70]
        [⟨0, 2, none, -30⟩, ⟨0, 2, some 2, -30⟩] =
      Except.ok [⟨MarketType.bear, 14, 0, 70, 100, -30, 14⟩,
        ⟨MarketType.bear, 14, 0, 70, 100, -30, 14⟩] ∧
    Regime.peakDate ⟨MarketType.bear, 14, 0, 70, 100, -30, 14⟩ = 0 ∧
    Regime.troughDate ⟨MarketType.bear, 14, 0, 70, 100, -30, 14⟩ = 14 := by
  refine ⟨?_, ?_, rfl, rfl⟩
  · norm_num [find_bear_markets, outerLoop, outerStep, innerLoop, List.range']
  · norm_num [identify_bull_markets, synthLoop, synthBear, locPrice]

end YFin
